import Mathlib

/-!
Verification of the project-analysis core of the PythonProjectToolkit
repository (`src/project_summerizer.py`), together with the LLM wrapper
(`src/llm_cli.py`), against the repository specification.

The Python code is shallowly embedded: each Python function of interest is
translated into an executable Lean definition over an explicit model of the
relevant state (the file system tree, the gitignore file content, the
sequence of strings written to each output handle).  The embedding fixes the
POSIX convention used by the analysis (`os.sep = '/'`), and paths handed to
the matcher are absolute, because `ProjectSummerizer.__init__` resolves
`root_dir` with `Path.resolve()` before any traversal.
-/

namespace ProjectToolkit

/-! ## Pattern matcher: `_convert_pattern_to_regex` and its use via `re.search`

`_convert_pattern_to_regex` builds the regex string

    re.escape(pattern.replace("/", os.sep)).replace("\\*", ".*")

then anchors it (`^body$`, or `^body[:-1].*$` when the escaped pattern ends
with `os.sep`), and finally replaces `os.sep` by the character class
`[\\/]`.  On POSIX `re.escape` leaves `/` untouched and turns each special
character `c` into the two-character literal escape `\c`; the only escape
unit rewritten afterwards is `\*` (produced exactly by a literal `*` in the
pattern), which becomes `.*`.  Hence the compiled regex is `^` followed by a
sequence of atoms — a literal character, the class `[\\/]` (from `/`), or
`.*` (from `*`) — followed by `$`.  We represent that atom sequence
directly. -/

inductive RTok where
  | lit (c : Char)
  | sepClass
  | dotStar
deriving DecidableEq, Repr

/-- One pattern character becomes one regex atom: `*` → `.*`, `/` → `[\\/]`
(via `os.sep`), anything else a literal (possibly escape-protected by
`re.escape`, which does not change what it matches). -/
def compileTok (c : Char) : RTok :=
  if c = '*' then .dotStar else if c = '/' then .sepClass else .lit c

/-- `_convert_pattern_to_regex` (POSIX, `os.sep = '/'`).  The trailing-slash
test `pattern.endswith(os.sep)` is performed on the escaped string, which
ends in `/` exactly when the raw pattern does; `pattern[:-1]` then drops that
slash and `.*$` is appended.  The surrounding `^`/`$` anchors are implicit in
the full-match semantics of `rmatch` below. -/
def convert_pattern_to_regex (p : String) : List RTok :=
  let toks := p.data.map compileTok
  if p.data.getLast? = some '/' then toks.dropLast ++ [.dotStar] else toks

/-- All suffixes of `s` obtained by deleting a newline-free prefix: the
candidate remainders after `.*` (which matches any run of non-newline
characters) has consumed some characters. -/
def tailsNoNl : List Char → List (List Char)
  | [] => [[]]
  | c :: cs => (c :: cs) :: (if c = '\n' then [] else tailsNoNl cs)

/-- Matching of a compiled pattern against a whole string.  Since every
compiled regex is anchored as `^...$` and the matched paths contain no
newline, `re.search` succeeds exactly when the atom sequence matches the
entire string. -/
def rmatch : List RTok → List Char → Bool
  | [], s => s.isEmpty
  | .lit _ :: _, [] => false
  | .lit c :: ts, d :: ds => (c == d) && rmatch ts ds
  | .sepClass :: _, [] => false
  | .sepClass :: ts, d :: ds => (d == '/' || d == '\\') && rmatch ts ds
  | .dotStar :: ts, s => (tailsNoNl s).any (fun s2 => rmatch ts s2)

/-- `any(re.search(pattern, str(p)) for pattern in self.ignore_patterns)` —
the exclusion test used both by `_tree_walk` and `_analyze_code`.  `str(p)`
is an absolute path because the root is `resolve()`d. -/
def excluded (pats : List (List RTok)) (path : String) : Bool :=
  pats.any (fun p => rmatch p path.data)

/-- The built-in `addons` list of `load_gitignore_patterns`. -/
def defaultAddons : List String :=
  ["tests/", "backups/", "docs/", "test*", "_*"]

/-! ## File-system model

A directory tree with ordered children; the order of a `dir`'s children
models the (unspecified) enumeration order of `Path.iterdir` / `os.scandir`.
A file's `parse` field models the outcome of opening it as UTF-8 and running
`ast.parse`: either the list of its top-level statements, a `SyntaxError`,
or a `UnicodeDecodeError`. -/

/-- Top-level statements of a parsed module, as classified by
`_process_file` (`isinstance(node, (ast.ClassDef, ast.FunctionDef))`).  The
`doc` field is the value returned by `ast.get_docstring` (`none` when the
node has no docstring). -/
inductive Stmt where
  | classDef (name : String) (doc : Option String)
  | functionDef (name : String) (doc : Option String)
  | asyncFunctionDef (name : String) (doc : Option String)
  | other
deriving DecidableEq, Repr

inductive ParseOutcome where
  | ok (body : List Stmt)
  | syntaxError
  | decodeError
deriving DecidableEq, Repr

inductive FSTree where
  | file (name : String) (parse : ParseOutcome)
  | dir (name : String) (children : List FSTree)
deriving Repr

def childName : FSTree → String
  | .file n _ => n
  | .dir n _ => n

def isDirB : FSTree → Bool
  | .file _ _ => false
  | .dir _ _ => true

/-- `p.name.startswith('.')`. -/
def hiddenName (n : String) : Bool :=
  n.data.head? = some '.'

/-- `pathlib.PurePath.suffix` of a file name: the part from the last dot,
unless that dot is the first or the last character of the name. -/
def pathSuffix (n : String) : List Char :=
  let r := n.data.reverse
  match r.findIdx? (fun c => c == '.') with
  | none => []
  | some k => if 0 < k ∧ k < n.data.length - 1 then (r.take (k + 1)).reverse else []

/-- `path.suffix == '.py'`, the file condition of `_tree_walk`. -/
def isPySuffix (n : String) : Bool :=
  pathSuffix n = ['.', 'p', 'y']

/-- `fnmatch`-matching of a name against `*.py`, the file condition of
`Path.rglob("*.py")` (matches every name ending in `.py`, including hidden
ones — `pathlib`'s glob does not special-case dot files). -/
def matchesStarPy (n : String) : Bool :=
  ['.', 'p', 'y'].isSuffixOf n.data

/-! ## Sibling sorting: `sorted(items, key=lambda p: (not p.is_dir(), p.name.lower()))`

Python's `sorted` is stable and sorts ascending by the key tuple; tuples
compare lexicographically, `False < True`, and strings compare by code
point.  A stable insertion sort with the corresponding strict ordering
reproduces it exactly. -/

/-- Python string `<` (code-point lexicographic). -/
def strLtB : List Char → List Char → Bool
  | [], [] => false
  | [], _ :: _ => true
  | _ :: _, [] => false
  | a :: as', b :: bs => if a.val < b.val then true else if a == b then strLtB as' bs else false

/-- Python `<` on the key tuple `(bool, str)`. -/
def keyLt (a b : Bool × List Char) : Bool :=
  (!a.1 && b.1) || (a.1 == b.1 && strLtB a.2 b.2)

/-- The sort key `(not p.is_dir(), p.name.lower())`; `str.lower` is modelled
per character (the analysed names are ASCII). -/
def entryKey (t : FSTree) : Bool × List Char :=
  (!isDirB t, (childName t).data.map Char.toLower)

/-- Stable insertion: an element moves past exactly the earlier elements
whose key is strictly smaller, so equal-key elements keep their input
order, as Python's stable sort does. -/
def insertByKey (key : α → Bool × List Char) (a : α) : List α → List α
  | [] => [a]
  | b :: bs => if keyLt (key b) (key a) then b :: insertByKey key a bs else a :: b :: bs

def sortByKey (key : α → Bool × List Char) : List α → List α
  | [] => []
  | a :: as' => insertByKey key a (sortByKey key as')

/-! ## Tree walker: `_tree_walk` / `_generate_structure`

`_tree_walk(current_dir, handle, prefix)` filters the children (hidden names
and matcher-excluded paths removed), sorts them with the key above, and
iterates with `is_last = (i == len(items) - 1)`; directories emit
`prefix + connector + name + "/\n"` and are recursed into with
`prefix + ("    " if is_last else "│   ")`, files emit their line only when
their suffix is `.py`.  Other entries emit nothing but still occupy a
position in `items`.

The embedding computes each child's sub-block first (the block a child
produces relative to its own level) and prepends the continuation prefix to
the block's lines afterwards; since the source threads its `prefix` argument
unchanged through the recursion and every emitted line is
`prefix ++ rest`, the two formulations produce identical lines.  Each list
element is one `handle.write` payload (one line, `"\n"` included). -/

/-- The per-directory loop of `_tree_walk`: `items` paired with their
already-computed sub-blocks, `is_last` expressed as "no later item". -/
def assembleItems : List (FSTree × List String) → List String
  | [] => []
  | (c, blk) :: rest =>
    (match c with
     | .dir n _ =>
         ((if rest.isEmpty then "└── " else "├── ") ++ n ++ "/\n")
           :: blk.map (fun l => (if rest.isEmpty then "    " else "│   ") ++ l)
     | .file n _ =>
         if isPySuffix n then [(if rest.isEmpty then "└── " else "├── ") ++ n ++ "\n"] else [])
    ++ assembleItems rest

mutual
/-- `_tree_walk` on one node: the lines written for the node's children (the
node's own line is written by its parent, or by `_generate_structure` for
the root).  `abs` is `str(current_dir)`. -/
def walkNode (pats : List (List RTok)) : FSTree → String → List String
  | .file _ _, _ => []
  | .dir _ cs, abs =>
      assembleItems (sortByKey (fun p => entryKey p.1)
        ((renderChildren pats cs abs).filter
          (fun p => !hiddenName (childName p.1)
            && !excluded pats (abs ++ "/" ++ childName p.1))))
termination_by structural t => t

/-- Pair every child (in `iterdir` order) with its recursively computed
sub-block; `str(p) = str(current_dir) + "/" + p.name`. -/
def renderChildren (pats : List (List RTok)) : List FSTree → String → List (FSTree × List String)
  | [], _ => []
  | c :: rest, abs =>
      (c, walkNode pats c (abs ++ "/" ++ childName c)) :: renderChildren pats rest abs
termination_by structural l => l
end

/-- `_generate_structure`: the root name line followed by the walk. -/
def generate_structure (pats : List (List RTok)) (rootAbs rootName : String)
    (t : FSTree) : List String :=
  (rootName ++ "/\n") :: walkNode pats t rootAbs

/-! ### Specification-side walker (for claim C6)

The same walk, written from the claim's words: the `i`-th of the `n`
filtered, sorted entries uses `└── ` exactly when `i = n - 1`, `├── `
otherwise, with matching continuation prefixes, and only directories and
`.py`-suffixed files are rendered. -/

/-- Index-based connector choice: entry number `i` of `total` is last iff
`i = total - 1`. -/
def specAssembleGo (total : Nat) : Nat → List (FSTree × List String) → List String
  | _, [] => []
  | i, (c, blk) :: rest =>
    (match c with
     | .dir n _ =>
         ((if i = total - 1 then "└── " else "├── ") ++ n ++ "/\n")
           :: blk.map (fun l => (if i = total - 1 then "    " else "│   ") ++ l)
     | .file n _ =>
         if isPySuffix n then [(if i = total - 1 then "└── " else "├── ") ++ n ++ "\n"] else [])
    ++ specAssembleGo total (i + 1) rest

mutual
def specWalkNode (pats : List (List RTok)) : FSTree → String → List String
  | .file _ _, _ => []
  | .dir _ cs, abs =>
      let items := sortByKey (fun p => entryKey p.1)
        ((specRenderChildren pats cs abs).filter
          (fun p => !hiddenName (childName p.1)
            && !excluded pats (abs ++ "/" ++ childName p.1)))
      specAssembleGo items.length 0 items
termination_by structural t => t

def specRenderChildren (pats : List (List RTok)) :
    List FSTree → String → List (FSTree × List String)
  | [], _ => []
  | c :: rest, abs =>
      (c, specWalkNode pats c (abs ++ "/" ++ childName c)) :: specRenderChildren pats rest abs
termination_by structural l => l
end

/-! ## `Path.rglob("*.py")` and `_analyze_code`

`rglob("*.py")` visits directories in depth-first pre-order following the
directory enumeration order (`_iterate_directories` yields a directory
before recursing into its subdirectories), and for each visited directory
yields its entries whose *name* matches `*.py`, in enumeration order.  It
performs no sorting, does not skip hidden entries, and does not prune
matcher-excluded directories: `_analyze_code` filters each yielded path
individually against the compiled patterns.

The embedding yields only regular files (a directory whose name ends in
`.py` would also be yielded by `rglob` and would then crash
`py_file.open()`; such trees are outside this model). -/

structure PyEntry where
  /-- components of `py_file.relative_to(self.root_dir)` -/
  relParts : List String
  /-- `str(py_file)` (absolute) -/
  abs : String
  parse : ParseOutcome
deriving DecidableEq, Repr

mutual
/-- Files yielded by `rglob` from one directory node: the directory's own
matching files (enumeration order), then each subdirectory's files
(pre-order, enumeration order). -/
def rglobFrom (t : FSTree) (abs : String) (rel : List String) : List PyEntry :=
  match t with
  | .file _ _ => []
  | .dir _ cs =>
      (cs.filterMap (fun c =>
        match c with
        | .file n pr =>
            if matchesStarPy n then some ⟨rel ++ [n], abs ++ "/" ++ n, pr⟩ else none
        | .dir _ _ => none))
      ++ rglobChildren cs abs rel
termination_by structural t

def rglobChildren : List FSTree → String → List String → List PyEntry
  | [], _, _ => []
  | c :: rest, abs, rel =>
      (match c with
       | .dir n _ => rglobFrom c (abs ++ "/" ++ n) (rel ++ [n])
       | .file _ _ => []) ++ rglobChildren rest abs rel
termination_by structural l => l
end

/-- `str()` of a relative `Path` built from components (POSIX). -/
def joinParts : List String → String
  | [] => ""
  | [p] => p
  | p :: q :: rest => p ++ "/" ++ joinParts (q :: rest)

/-! ## Declaration extractor: `_handle_code_element` / `_process_file` -/

/-- `_handle_code_element` for one node of kind `elementType` ("Class" or
"Function") with name `name` and `ast.get_docstring` result `doc`.  Python's
`ast.get_docstring(node) or "No documentation"` replaces both `None` and the
falsy empty string by the sentinel.  Returns the chunks written to the
summary handle and to the undocumented handle. -/
def handleElement (elementType name : String) (doc : Option String)
    (relPath : String) : List String × List String :=
  let docstring := match doc with
    | none => "No documentation"
    | some s => if s = "" then "No documentation" else s
  (["  " ++ elementType ++ ": " ++ name ++ "\n",
    "    Documentation: " ++ String.mk (docstring.data.take 100) ++ "...\n"],
   if docstring = "No documentation" then
     ["File: " ++ relPath ++ " | Element: " ++ elementType ++ " | Name: " ++ name ++ "\n"]
   else [])

/-- Statement dispatch of `_process_file`'s loop body:
`isinstance(node, (ast.ClassDef, ast.FunctionDef))` selects exactly class
and (synchronous) function definitions; everything else — including
`ast.AsyncFunctionDef` — is skipped. -/
def handle_code_element (st : Stmt) (relPath : String) : List String × List String :=
  match st with
  | .classDef name doc => handleElement "Class" name doc relPath
  | .functionDef name doc => handleElement "Function" name doc relPath
  | .asyncFunctionDef _ _ => ([], [])
  | .other => ([], [])

/-- `_process_file`: the `File:` header then one block per handled
statement. -/
def process_file (rel : String) (body : List Stmt) : List String × List String :=
  (("\nFile: " ++ rel ++ "\n") :: body.flatMap (fun st => (handle_code_element st rel).1),
   body.flatMap (fun st => (handle_code_element st rel).2))

/-- The loop of `_analyze_code` over the `rglob` sequence: skip entries
matched by a pattern; parse the rest, skipping (with a logged warning) the
ones raising `SyntaxError` or `UnicodeDecodeError`.  Returns the summary
and undocumented chunks, in write order. -/
def analyze_list (pats : List (List RTok)) : List PyEntry → List String × List String
  | [] => ([], [])
  | e :: rest =>
    let acc := analyze_list pats rest
    if excluded pats e.abs then acc
    else
      match e.parse with
      | .ok body =>
          let f := process_file (joinParts e.relParts) body
          (f.1 ++ acc.1, f.2 ++ acc.2)
      | .syntaxError => acc
      | .decodeError => acc

/-- `_analyze_code` itself. -/
def analyze_code (pats : List (List RTok)) (rootAbs : String) (t : FSTree) :
    List String × List String :=
  analyze_list pats (rglobFrom t rootAbs [])

/-- The order in which `_analyze_code` hands files to `_process_file` — the
order of the `File:` headers in the summary (one header per processed
file). -/
def analyze_file_order (pats : List (List RTok)) (entries : List PyEntry) :
    List (List String) :=
  entries.filterMap (fun e =>
    if excluded pats e.abs then none
    else match e.parse with
      | .ok _ => some e.relParts
      | .syntaxError => none
      | .decodeError => none)

/-! ### Specification-side file orderings (for claim C3)

`claimSortedOrder` is the ordering asserted by the specification: depth-first
pre-order, siblings sorted directories-first and case-insensitively
alphabetically, listing the non-ignored `.py` files.  `specReportOrder` is
the ordering the code actually produces (directory-grouped `rglob` document
order, exclusion tested per file, unparseable files omitted). -/

mutual
/-- The report ordering as claimed by the spec (sorted depth-first
pre-order). -/
def claimSortedOrder (pats : List (List RTok)) : FSTree → String → List (List String)
  | .file _ _, _ => []
  | .dir _ cs, abs =>
      (sortByKey (fun p => entryKey p.1) (claimSortedChildren pats cs abs)).flatMap
        (fun p =>
          match p.1 with
          | .file n _ =>
              if matchesStarPy n && !excluded pats (abs ++ "/" ++ n) then [[n]] else []
          | .dir n _ =>
              if excluded pats (abs ++ "/" ++ n) then []
              else p.2.map (fun parts => n :: parts))
termination_by structural t => t

def claimSortedChildren (pats : List (List RTok)) :
    List FSTree → String → List (FSTree × List (List String))
  | [], _ => []
  | c :: rest, abs =>
      (c, claimSortedOrder pats c (abs ++ "/" ++ childName c))
        :: claimSortedChildren pats rest abs
termination_by structural l => l
end

/-- Boolean test for a successfully parsed file. -/
def isOkParse : ParseOutcome → Bool
  | .ok _ => true
  | .syntaxError => false
  | .decodeError => false

mutual
/-- The report ordering the code produces, stated structurally: for every
directory, its own successfully-parsed, non-excluded `.py` files in listing
order, followed by each subdirectory's block in listing order. -/
def specReportOrder (pats : List (List RTok)) : FSTree → String → List (List String)
  | .file _ _, _ => []
  | .dir _ cs, abs =>
      (cs.filterMap (fun c =>
        match c with
        | .file n pr =>
            if matchesStarPy n && isOkParse pr && !excluded pats (abs ++ "/" ++ n)
            then some [n] else none
        | .dir _ _ => none))
      ++ specReportChildren pats cs abs
termination_by structural t => t

def specReportChildren (pats : List (List RTok)) :
    List FSTree → String → List (List String)
  | [], _ => []
  | c :: rest, abs =>
      (match c with
       | .dir n _ => (specReportOrder pats c (abs ++ "/" ++ n)).map (fun parts => n :: parts)
       | .file _ _ => []) ++ specReportChildren pats rest abs
termination_by structural l => l
end

/-! ## `_update_gitignore`

The file content is modelled as a `String` (an absent file as `none`).
`e in existing` is Python substring containment; `"\n".join` is modelled by
the recursive `joinNL`; open-for-append creates a missing file empty and
`"\n" + "\n".join(entries)` is appended only when `entries` is non-empty. -/

def gitignoreEntries : List String :=
  ["# Project analysis outputs",
   "project_summary_*.txt",
   "undocumented_code_*.txt",
   "backups/"]

/-- Python `e in s` (substring containment), on the character lists. -/
def hasSub (s e : List Char) : Bool :=
  s.tails.any (fun t => e.isPrefixOf t)

/-- Python `e in s` (substring containment). -/
def containsSub (s e : String) : Bool :=
  hasSub s.data e.data

/-- Python `"\n".join`. -/
def joinNL : List String → String
  | [] => ""
  | [e] => e
  | e :: e2 :: rest => e ++ "\n" ++ joinNL (e2 :: rest)

/-- `_update_gitignore`, as a function from the previous content of
`output_dir/.gitignore` to its new content. -/
def update_gitignore : Option String → String
  | none => "" ++ "\n" ++ joinNL gitignoreEntries
  | some s =>
      let entries := gitignoreEntries.filter (fun e => !containsSub s e)
      if entries.isEmpty then s else s ++ "\n" ++ joinNL entries

/-- Split on newlines (the lines of a file, for duplicate-line counting). -/
def splitNl : List Char → List (List Char)
  | [] => [[]]
  | c :: cs =>
      if c = '\n' then [] :: splitNl cs
      else
        match splitNl cs with
        | [] => [[c]]
        | h :: t => (c :: h) :: t

/-- Number of lines of `s` equal to `e`. -/
def lineCountStr (s e : String) : Nat :=
  (splitNl s.data).count e.data

def lineCountOpt : Option String → String → Nat
  | none, _ => 0
  | some s, e => lineCountStr s e

/-- The `.gitignore` content after `main`: `generate_summary` always runs
`_update_gitignore` once (line 72), and `main` runs it a second time unless
`--no-gitignore` is set (lines 259–260). -/
def main_gitignore_content (noGitignoreFlag : Bool) (initial : Option String) : String :=
  let afterGen := update_gitignore initial
  if noGitignoreFlag then afterGen else update_gitignore (some afterGen)

/-! ## `generate_summary` as an effect trace (for claims C9/C10)

Each file-system side effect of one `generate_summary` call, in program
order.  A `writeFile` effect carries the full chunk sequence written to the
handle opened with mode `'w'`; the gitignore update appends. -/

inductive Effect where
  | mkdirP (path : String)
  | writeFile (path : String) (chunks : List String)
  | appendFile (path : String) (content : String)
deriving DecidableEq, Repr

/-- The fixed AI-analysis prompt block embedded in the summary header
(`_write_file_headers`). -/
def analysisPrompt : String :=
  "**AI Analysis Prompt (Copy-Paste Ready):**\n        \nAnalyze this project structure focusing on:\n1. Architecture efficiency\n2. Code quality metrics\n3. Performance bottlenecks\n4. Scalability potential\n\nProvide recommendations in this format:\n- [High/Medium/Low Impact] [Category] Concise Suggestion (Cost-Benefit Rationale)\n\nConstraints:\n- Max 10 key suggestions\n- Technical specificity\n- Minimal resource prioritization\n- No verbose explanations\n\nExample:\n- [High] [Arch] Extract shared utils to module (Reduce 40% code duplication)\n- [Medium] [Perf] Cache DB queries in user/auth routes (Save ~200ms/request)\n    "

/-- `_write_file_headers` for the summary handle (`now` is the formatted
`datetime.now()`). -/
def summaryHeader (now rootAbs : String) : String :=
  "=== Project Summary and AI Analysis Guide ===" ++ "\n"
    ++ ("Generated: " ++ now) ++ "\n"
    ++ ("Project Root: " ++ rootAbs) ++ "\n"
    ++ ("\n" ++ analysisPrompt ++ "\n") ++ "\n"
    ++ "\nProject Structure:\n" ++ "\n\n"

/-- `_write_file_headers` for the undocumented handle. -/
def undocumentedHeader : String :=
  "=== Undocumented Code Elements ===" ++ "\n"
    ++ "Use this format for documentation generation:" ++ "\n"
    ++ "File: <relative_path> | Element: <type> | Name: <name>" ++ "\n\n"

/-- The append effect of `_update_gitignore` (no effect at all when every
entry is already present). -/
def update_gitignore_effects (outputAbs : String) (existing : Option String) :
    List Effect :=
  match existing with
  | none =>
      [.appendFile (outputAbs ++ "/.gitignore") ("\n" ++ joinNL gitignoreEntries)]
  | some s =>
      let entries := gitignoreEntries.filter (fun e => !containsSub s e)
      if entries.isEmpty then []
      else [.appendFile (outputAbs ++ "/.gitignore") ("\n" ++ joinNL entries)]

/-- The effect trace of `generate_summary(summary_file, undocumented_file)`:
create the output directory and `self.backup_dir = output_dir / "backups"`,
write the two artifacts, then update the output directory's `.gitignore`.
`gi` is the prior content of that `.gitignore`. -/
def generate_summary_effects (pats : List (List RTok))
    (rootAbs rootName outputAbs : String) (summaryPath undocPath : String)
    (now : String) (t : FSTree) (gi : Option String) : List Effect :=
  [Effect.mkdirP outputAbs,
   Effect.mkdirP (outputAbs ++ "/backups"),
   Effect.writeFile summaryPath
     (summaryHeader now rootAbs :: generate_structure pats rootAbs rootName t
       ++ (analyze_code pats rootAbs t).1),
   Effect.writeFile undocPath
     (undocumentedHeader :: (analyze_code pats rootAbs t).2)]
  ++ update_gitignore_effects outputAbs gi

/-! ## LLM wrapper (`src/llm_cli.py`)

`comunicate_with_llm` performs one request and returns the stripped message
content, or `None` when `requests.post` / `raise_for_status` raises a
`RequestException` (caught and logged).  The network outcome is a parameter
of the model.

`comunicate_with_llm_cached` first evaluates
`cache_key in comunicate_with_llm_cached.cache_info().hits`.  The function
is wrapped by `functools.lru_cache`, whose `cache_info()` returns a
`CacheInfo` named tuple whose `hits` field is an `int` counter, so the `in`
test raises `TypeError: argument of type 'int' is not iterable` before any
request is made.  Python-level exceptions are modelled with `Except`. -/

inductive PyError where
  | typeError (msg : String)
deriving DecidableEq, Repr

inductive NetOutcome where
  | success (text : String)
  | failure
deriving DecidableEq, Repr

/-- The `hits` field of `functools.lru_cache(...).cache_info()`: an integer
counter (0 before any cache hit). -/
def lruCacheHits : Int := 0

/-- Python `key in container` where the container is an `int`: always a
`TypeError`. -/
def pyInStrInt (_key : String) (_container : Int) : Except PyError Bool :=
  .error (.typeError "argument of type 'int' is not iterable")

/-- `comunicate_with_llm`: the extracted text on success, `None` on
`RequestException`; no other exception escapes. -/
def comunicate_with_llm (net : NetOutcome) (_prompt : String) : Option String :=
  match net with
  | .success text => some text
  | .failure => none

/-- `comunicate_with_llm_cached`.  `md5hex` abstracts
`hashlib.md5(prompt.encode()).hexdigest()`; its value is never reached by
control flow that matters, because the membership test on the integer
`hits` counter raises first.  (If the test could succeed, the subsequent
`hits[cache_key]` indexing of an `int` would raise as well.) -/
def comunicate_with_llm_cached (md5hex : String → String) (net : NetOutcome)
    (prompt : String) : Except PyError (Option String) :=
  let cache_key := md5hex prompt
  match pyInStrInt cache_key lruCacheHits with
  | .error e => .error e
  | .ok true => .error (.typeError "'int' object is not subscriptable")
  | .ok false =>
      match net with
      | .success text => .ok (some text)
      | .failure => .ok none

/-- Well-formed file system: sibling names are distinct (as on a real file
system), recursively. -/
inductive WfNames : FSTree → Prop where
  | file (n : String) (pr : ParseOutcome) : WfNames (.file n pr)
  | dir (n : String) (cs : List FSTree) :
      (cs.map childName).Nodup → (∀ c ∈ cs, WfNames c) → WfNames (.dir n cs)

/-- `p` denotes a path strictly inside the directory `base`. -/
def underDir (base p : String) : Prop :=
  (base ++ "/").data <+: p.data

/-! ## Helper lemmas -/

theorem FSTree.sizeOf_lt_of_mem : ∀ {c : FSTree} {l : List FSTree}, c ∈ l → sizeOf c < sizeOf l
  | c, h :: t, hc => by
    rcases List.mem_cons.mp hc with h1 | h2
    · subst h1; simp; omega
    · have := FSTree.sizeOf_lt_of_mem h2; simp; omega
  | _, [], hc => by simp at hc

/-- Member-wise induction over the nested file-system tree. -/
theorem FSTree.inductionOn {P : FSTree → Prop}
    (hfile : ∀ n pr, P (FSTree.file n pr))
    (hdir : ∀ n cs, (∀ c ∈ cs, P c) → P (FSTree.dir n cs)) :
    ∀ t, P t
  | .file n pr => hfile n pr
  | .dir n cs => hdir n cs (fun c hc =>
      have : sizeOf c < sizeOf (FSTree.dir n cs) := by
        have := FSTree.sizeOf_lt_of_mem hc
        simp only [FSTree.dir.sizeOf_spec]
        omega
      FSTree.inductionOn hfile hdir c)
termination_by t => sizeOf t

theorem hasSub_iff {s e : List Char} : hasSub s e = true ↔ e <:+: s := by
  unfold hasSub
  rw [List.any_eq_true]
  constructor
  · rintro ⟨t, ht, hp⟩
    rw [List.mem_tails] at ht
    rw [List.isPrefixOf_iff_prefix] at hp
    exact List.infix_iff_prefix_suffix.mpr ⟨t, hp, ht⟩
  · intro h
    rcases List.infix_iff_prefix_suffix.mp h with ⟨t, hp, ht⟩
    exact ⟨t, (List.mem_tails _ _).mpr ht, List.isPrefixOf_iff_prefix.mpr hp⟩

theorem containsSub_append_left {s t e : String} (h : containsSub s e = true) :
    containsSub (s ++ t) e = true := by
  unfold containsSub at *
  rw [hasSub_iff] at *
  rw [String.data_append]
  exact h.trans (List.prefix_append s.data t.data).isInfix

theorem containsSub_append_right {s t e : String} (h : containsSub t e = true) :
    containsSub (s ++ t) e = true := by
  unfold containsSub at *
  rw [hasSub_iff] at *
  rw [String.data_append]
  exact h.trans (List.suffix_append s.data t.data).isInfix

theorem joinNL_contains_of_mem : ∀ {l : List String} {e : String}, e ∈ l →
    e.data <:+: (joinNL l).data
  | [], _, he => absurd he (List.not_mem_nil _)
  | [_], e, he => by
      rcases List.mem_singleton.mp he with rfl
      exact List.infix_refl _
  | a :: b :: rest, e, he => by
      rcases List.mem_cons.mp he with rfl | he2
      · show e.data <:+: ((e ++ "\n") ++ joinNL (b :: rest)).data
        rw [String.data_append, String.data_append]
        exact ((List.prefix_append e.data _).trans
          (List.prefix_append _ _)).isInfix
      · show e.data <:+: ((a ++ "\n") ++ joinNL (b :: rest)).data
        rw [String.data_append]
        exact (joinNL_contains_of_mem he2).trans (List.suffix_append _ _).isInfix

/-- After one `_update_gitignore` run, each standard entry is a substring of
the file. -/
theorem containsSub_update_gitignore (x : Option String) (e : String)
    (he : e ∈ gitignoreEntries) : containsSub (update_gitignore x) e = true := by
  match x with
  | none =>
      show containsSub ("" ++ "\n" ++ joinNL gitignoreEntries) e = true
      apply containsSub_append_right
      unfold containsSub
      rw [hasSub_iff]
      exact joinNL_contains_of_mem he
  | some s =>
      show containsSub
        (if (gitignoreEntries.filter (fun e2 => !containsSub s e2)).isEmpty then s
         else s ++ "\n" ++ joinNL (gitignoreEntries.filter (fun e2 => !containsSub s e2)))
        e = true
      by_cases hc : containsSub s e = true
      · split
        · exact hc
        · exact containsSub_append_left (containsSub_append_left hc)
      · have hmem : e ∈ gitignoreEntries.filter (fun e2 => !containsSub s e2) :=
          List.mem_filter.mpr ⟨he, by simp [hc]⟩
        have hne : (gitignoreEntries.filter (fun e2 => !containsSub s e2)).isEmpty = false := by
          cases hfil : gitignoreEntries.filter (fun e2 => !containsSub s e2) with
          | nil => rw [hfil] at hmem; exact absurd hmem (List.not_mem_nil _)
          | cons a l => simp
        rw [hne]
        simp only [Bool.false_eq_true, if_false]
        apply containsSub_append_right
        unfold containsSub
        rw [hasSub_iff]
        exact joinNL_contains_of_mem hmem

/-- `_update_gitignore` is idempotent on the file content. -/
theorem update_gitignore_idem (x : Option String) :
    update_gitignore (some (update_gitignore x)) = update_gitignore x := by
  show (if (gitignoreEntries.filter
        (fun e => !containsSub (update_gitignore x) e)).isEmpty then update_gitignore x
      else _) = update_gitignore x
  have hnil : gitignoreEntries.filter (fun e => !containsSub (update_gitignore x) e) = [] := by
    rw [List.filter_eq_nil_iff]
    intro e he
    simp [containsSub_update_gitignore x e he]
  rw [hnil]
  rfl

theorem splitNl_nil : splitNl [] = [[]] := rfl

theorem splitNl_newline_cons (cs : List Char) : splitNl ('\n' :: cs) = [] :: splitNl cs := rfl

theorem splitNl_other_cons {c : Char} (hc : ¬ c = '\n') (cs : List Char) :
    splitNl (c :: cs)
      = match splitNl cs with
        | [] => [[c]]
        | h :: t => (c :: h) :: t := by
  show (if c = '\n' then [] :: splitNl cs
        else match splitNl cs with
          | [] => [[c]]
          | h :: t => (c :: h) :: t) = _
  rw [if_neg hc]

theorem splitNl_ne_nil : ∀ l : List Char, splitNl l ≠ []
  | [] => by simp [splitNl_nil]
  | c :: cs => by
      by_cases hc : c = '\n'
      · subst hc
        rw [splitNl_newline_cons]
        simp
      · rw [splitNl_other_cons hc]
        cases h : splitNl cs with
        | nil => simp
        | cons a t => simp

theorem splitNl_append_newline : ∀ a b : List Char,
    splitNl (a ++ '\n' :: b) = splitNl a ++ splitNl b
  | [], b => by simp [splitNl_nil, splitNl_newline_cons]
  | c :: cs, b => by
      by_cases hc : c = '\n'
      · subst hc
        show splitNl ('\n' :: (cs ++ '\n' :: b)) = splitNl ('\n' :: cs) ++ splitNl b
        rw [splitNl_newline_cons, splitNl_newline_cons, splitNl_append_newline cs b]
        simp
      · show splitNl (c :: (cs ++ '\n' :: b)) = splitNl (c :: cs) ++ splitNl b
        rw [splitNl_other_cons hc, splitNl_other_cons hc, splitNl_append_newline cs b]
        cases h : splitNl cs with
        | nil => exact absurd h (splitNl_ne_nil cs)
        | cons hd t => simp

theorem splitNl_no_newline : ∀ {l : List Char}, '\n' ∉ l → splitNl l = [l]
  | [], _ => by simp [splitNl_nil]
  | c :: cs, h => by
      have hc : ¬ c = '\n' := fun hh => h (by rw [hh]; exact List.mem_cons_self _ cs)
      have hcs : '\n' ∉ cs := fun hh => h (List.mem_cons_of_mem c hh)
      rw [splitNl_other_cons hc, splitNl_no_newline hcs]

/-- Every line produced by `splitNl` occurs inside the original list, the
first one as a prefix. -/
theorem splitNl_chunks : ∀ l : List Char,
    (∀ ch ∈ splitNl l, ch <:+: l) ∧ (∀ h t, splitNl l = h :: t → h <+: l)
  | [] => by
      constructor
      · intro ch hch
        simp [splitNl] at hch
        simp [hch]
      · intro h t hht
        simp [splitNl] at hht
        simp [hht.1]
  | c :: cs => by
      have IH := splitNl_chunks cs
      by_cases hc : c = '\n'
      · subst hc
        have hsp : splitNl ('\n' :: cs) = [] :: splitNl cs := splitNl_newline_cons cs
        constructor
        · intro ch hch
          rw [hsp] at hch
          rcases List.mem_cons.mp hch with rfl | h2
          · exact List.nil_infix
          · exact (IH.1 ch h2).trans (List.suffix_cons _ _).isInfix
        · intro h t hht
          rw [hsp] at hht
          cases hht
          exact List.nil_prefix
      · rcases hsc : splitNl cs with _ | ⟨hd, tl⟩
        · exact absurd hsc (splitNl_ne_nil cs)
        · have hsp : splitNl (c :: cs) = (c :: hd) :: tl := by
            rw [splitNl_other_cons hc, hsc]
          have hhd : hd <+: cs := IH.2 hd tl hsc
          constructor
          · intro ch hch
            rw [hsp] at hch
            rcases List.mem_cons.mp hch with rfl | h2
            · exact ((List.cons_prefix_cons.mpr ⟨rfl, hhd⟩)
                 : (c :: hd) <+: (c :: cs)).isInfix
            · have : ch ∈ splitNl cs := by rw [hsc]; exact List.mem_cons_of_mem hd h2
              exact (IH.1 ch this).trans (List.suffix_cons _ _).isInfix
          · intro h t hht
            rw [hsp] at hht
            cases hht
            exact List.cons_prefix_cons.mpr ⟨rfl, hhd⟩

theorem line_infix_of_count_pos {s e : String} (h : 0 < lineCountStr s e) :
    e.data <:+: s.data := by
  unfold lineCountStr at h
  have hmem : e.data ∈ splitNl s.data := List.count_pos_iff.mp h
  exact (splitNl_chunks s.data).1 _ hmem

theorem string_data_injective : Function.Injective String.data := by
  intro a b h
  cases a
  cases b
  exact congrArg String.mk h

theorem count_map_data : ∀ (l : List String) (e : String),
    (l.map String.data).count e.data = l.count e
  | [], _ => rfl
  | a :: l, e => by
      by_cases h : a = e
      · subst h
        simp [List.count_cons, count_map_data l a]
      · have hd : ¬ (a.data = e.data) := fun hh => h (string_data_injective hh)
        simp [List.count_cons, count_map_data l e, h, hd]

/-- Splitting the joined entries recovers them, when no entry contains a
newline. -/
theorem splitNl_joinNL : ∀ {l : List String}, l ≠ [] → (∀ e ∈ l, '\n' ∉ e.data) →
    splitNl (joinNL l).data = l.map String.data
  | [], h, _ => absurd rfl h
  | [e], _, hn => by
      show splitNl e.data = [e].map String.data
      rw [splitNl_no_newline (hn e (List.mem_singleton.mpr rfl))]
      simp
  | a :: b :: rest, _, hn => by
      show splitNl ((a ++ "\n") ++ joinNL (b :: rest)).data = _
      rw [String.data_append, String.data_append]
      have : ("\n" : String).data = ['\n'] := rfl
      rw [this, List.append_assoc, List.singleton_append, splitNl_append_newline]
      rw [splitNl_no_newline (hn a (List.mem_cons_self a _)),
        splitNl_joinNL (by simp) (fun e he => hn e (List.mem_cons_of_mem a he))]
      simp

theorem gitignoreEntries_nodup : gitignoreEntries.Nodup := by decide

theorem gitignoreEntries_no_newline : ∀ e ∈ gitignoreEntries, '\n' ∉ e.data := by decide

/-- Line-count bound after one `_update_gitignore` run: an entry occurring at
most once as a line before the run occurs at most once afterwards. -/
theorem lineCount_update_gitignore (x : Option String) (e : String)
    (he : e ∈ gitignoreEntries) (hx : lineCountOpt x e ≤ 1) :
    lineCountStr (update_gitignore x) e ≤ 1 := by
  have hsplit : ∀ (s : String) (fil : List String), fil ≠ [] →
      (∀ e2 ∈ fil, e2 ∈ gitignoreEntries) →
      lineCountStr (s ++ "\n" ++ joinNL fil) e
        = lineCountStr s e + fil.count e := by
    intro s fil hne hsub
    unfold lineCountStr
    rw [String.data_append, String.data_append]
    have : ("\n" : String).data = ['\n'] := rfl
    rw [this, List.append_assoc, List.singleton_append, splitNl_append_newline,
      List.count_append]
    congr 1
    rw [splitNl_joinNL hne (fun e2 he2 => gitignoreEntries_no_newline e2 (hsub e2 he2))]
    exact count_map_data fil e
  have hed : e.data ≠ [] := by
    simp only [gitignoreEntries, List.mem_cons, List.not_mem_nil, or_false] at he
    rcases he with rfl | rfl | rfl | rfl <;> decide
  match x with
  | none =>
      show lineCountStr ("" ++ "\n" ++ joinNL gitignoreEntries) e ≤ 1
      rw [hsplit "" gitignoreEntries (by simp [gitignoreEntries]) (fun _ h => h)]
      have h0 : lineCountStr "" e = 0 := by
        unfold lineCountStr
        have hh : ("" : String).data = [] := rfl
        rw [hh, splitNl_nil, List.count_eq_zero]
        simpa using hed
      rw [h0]
      simpa using List.nodup_iff_count_le_one.mp gitignoreEntries_nodup e
  | some s =>
      show lineCountStr
        (if (gitignoreEntries.filter (fun e2 => !containsSub s e2)).isEmpty then s
         else s ++ "\n" ++ joinNL (gitignoreEntries.filter (fun e2 => !containsSub s e2))) e ≤ 1
      split
      · exact hx
      · rw [hsplit s _ (by
            rename_i hfil
            intro hnil
            rw [hnil] at hfil
            simp at hfil)
          (fun e2 he2 => (List.mem_filter.mp he2).1)]
        by_cases hc : containsSub s e = true
        · have : (gitignoreEntries.filter (fun e2 => !containsSub s e2)).count e = 0 := by
            rw [List.count_eq_zero]
            intro hmem
            have := (List.mem_filter.mp hmem).2
            simp [hc] at this
          rw [this]
          simpa using hx
        · have h0 : lineCountStr s e = 0 := by
            by_contra h
            have hpos : 0 < lineCountStr s e := Nat.pos_of_ne_zero h
            have := line_infix_of_count_pos hpos
            have : containsSub s e = true := by
              unfold containsSub
              rw [hasSub_iff]
              exact this
            exact hc this
          rw [h0]
          have hnodup : (gitignoreEntries.filter (fun e2 => !containsSub s e2)).Nodup :=
            (List.filter_sublist _).nodup gitignoreEntries_nodup
          simpa using List.nodup_iff_count_le_one.mp hnodup e

theorem renderChildren_append (pats : List (List RTok)) (l₁ l₂ : List FSTree) (abs : String) :
    renderChildren pats (l₁ ++ l₂) abs
      = renderChildren pats l₁ abs ++ renderChildren pats l₂ abs := by
  induction l₁ with
  | nil => rfl
  | cons c rest ih =>
      show (c, walkNode pats c (abs ++ "/" ++ childName c)) :: renderChildren pats (rest ++ l₂) abs
        = (c, walkNode pats c (abs ++ "/" ++ childName c))
            :: (renderChildren pats rest abs ++ renderChildren pats l₂ abs)
      rw [ih]

/-- A matcher-excluded child contributes nothing to `_tree_walk`'s output:
the walk of a directory equals the walk with the excluded child (and hence
its whole subtree) removed. -/
theorem walkNode_prunes_excluded (pats : List (List RTok)) (abs nm : String)
    (cs₁ cs₂ : List FSTree) (c : FSTree)
    (hex : excluded pats (abs ++ "/" ++ childName c) = true) :
    walkNode pats (.dir nm (cs₁ ++ c :: cs₂)) abs
      = walkNode pats (.dir nm (cs₁ ++ cs₂)) abs := by
  show assembleItems (sortByKey (fun p => entryKey p.1)
      ((renderChildren pats (cs₁ ++ c :: cs₂) abs).filter
        (fun p => !hiddenName (childName p.1)
          && !excluded pats (abs ++ "/" ++ childName p.1))))
    = assembleItems (sortByKey (fun p => entryKey p.1)
      ((renderChildren pats (cs₁ ++ cs₂) abs).filter
        (fun p => !hiddenName (childName p.1)
          && !excluded pats (abs ++ "/" ++ childName p.1))))
  rw [renderChildren_append, renderChildren_append]
  show assembleItems (sortByKey _ (List.filter _ (_ ++
      ((c, walkNode pats c (abs ++ "/" ++ childName c)) :: renderChildren pats cs₂ abs)))) = _
  rw [List.filter_append, List.filter_append, List.filter_cons]
  have hpred : (!hiddenName (childName c) && !excluded pats (abs ++ "/" ++ childName c)) = false := by
    rw [hex]
    simp
  rw [hpred]
  simp

/-- Per-file exclusion in `_analyze_code`: every `rglob`-yielded entry whose
own absolute path is not matched and which parses successfully gets its
`File:` section, regardless of whether an ancestor directory is matched. -/
theorem file_header_mem_analyze (pats : List (List RTok)) (entries : List PyEntry)
    (e : PyEntry) (hmem : e ∈ entries) (hex : excluded pats e.abs = false)
    (body : List Stmt) (hp : e.parse = .ok body) :
    ("\nFile: " ++ joinParts e.relParts ++ "\n") ∈ (analyze_list pats entries).1 := by
  induction entries with
  | nil => cases hmem
  | cons a rest ih =>
      rcases List.mem_cons.mp hmem with rfl | h2
      · show ("\nFile: " ++ joinParts e.relParts ++ "\n")
          ∈ (if excluded pats e.abs then analyze_list pats rest
             else match e.parse with
               | .ok body2 =>
                   ((process_file (joinParts e.relParts) body2).1 ++ (analyze_list pats rest).1,
                    (process_file (joinParts e.relParts) body2).2 ++ (analyze_list pats rest).2)
               | .syntaxError => analyze_list pats rest
               | .decodeError => analyze_list pats rest).1
        rw [hex, hp]
        simp only [Bool.false_eq_true, if_false]
        exact List.mem_append_left _ (List.mem_cons_self _ _)
      · have hrec := ih h2
        show ("\nFile: " ++ joinParts e.relParts ++ "\n")
          ∈ (if excluded pats a.abs then analyze_list pats rest
             else match a.parse with
               | .ok body2 =>
                   ((process_file (joinParts a.relParts) body2).1 ++ (analyze_list pats rest).1,
                    (process_file (joinParts a.relParts) body2).2 ++ (analyze_list pats rest).2)
               | .syntaxError => analyze_list pats rest
               | .decodeError => analyze_list pats rest).1
        split
        · exact hrec
        · cases a.parse with
          | ok body2 => exact List.mem_append_right _ hrec
          | syntaxError => exact hrec
          | decodeError => exact hrec

/-- The source's `is_last = (no later item)` recursion and the claim-style
`i = n - 1` indexed enumeration assemble identical output. -/
theorem specAssembleGo_eq : ∀ (l : List (FSTree × List String)) (i : Nat),
    specAssembleGo (i + l.length) i l = assembleItems l := by
  intro l
  induction l with
  | nil => intro i; rfl
  | cons p rest ih =>
      intro i
      obtain ⟨c, blk⟩ := p
      show (match c with
            | .dir n _ =>
                ((if i = i + ((c, blk) :: rest).length - 1 then "└── " else "├── ") ++ n ++ "/\n")
                  :: blk.map (fun l2 =>
                    (if i = i + ((c, blk) :: rest).length - 1 then "    " else "│   ") ++ l2)
            | .file n _ =>
                if isPySuffix n then
                  [(if i = i + ((c, blk) :: rest).length - 1 then "└── " else "├── ") ++ n ++ "\n"]
                else [])
          ++ specAssembleGo (i + ((c, blk) :: rest).length) (i + 1) rest
        = (match c with
            | .dir n _ =>
                ((if rest.isEmpty then "└── " else "├── ") ++ n ++ "/\n")
                  :: blk.map (fun l2 => (if rest.isEmpty then "    " else "│   ") ++ l2)
            | .file n _ =>
                if isPySuffix n then
                  [(if rest.isEmpty then "└── " else "├── ") ++ n ++ "\n"]
                else [])
          ++ assembleItems rest
      have hlen : i + ((c, blk) :: rest).length = (i + 1) + rest.length := by
        simp [List.length_cons]
        omega
      have hcond : (i = i + 1 + rest.length - 1) = (rest.isEmpty = true) := by
        cases rest with
        | nil => simp
        | cons q qs =>
            simp only [List.length_cons, List.isEmpty_cons]
            apply propext
            constructor
            · intro hh
              omega
            · intro hh
              cases hh
      simp only [hlen, hcond, ih (i + 1)]

mutual
/-- `_tree_walk` equals the claim-style indexed formulation, node-wise. -/
theorem walkNode_eq_spec (pats : List (List RTok)) :
    ∀ (t : FSTree) (abs : String), walkNode pats t abs = specWalkNode pats t abs
  | .file _ _, _ => rfl
  | .dir _ cs, abs => by
      show assembleItems (sortByKey (fun p => entryKey p.1)
          ((renderChildren pats cs abs).filter
            (fun p => !hiddenName (childName p.1)
              && !excluded pats (abs ++ "/" ++ childName p.1))))
        = specAssembleGo (sortByKey (fun p => entryKey p.1)
            ((specRenderChildren pats cs abs).filter
              (fun p => !hiddenName (childName p.1)
                && !excluded pats (abs ++ "/" ++ childName p.1)))).length 0
            (sortByKey (fun p => entryKey p.1)
              ((specRenderChildren pats cs abs).filter
                (fun p => !hiddenName (childName p.1)
                  && !excluded pats (abs ++ "/" ++ childName p.1))))
      rw [← renderChildren_eq_spec pats cs abs]
      have h0 : (sortByKey (fun p => entryKey p.1)
          ((renderChildren pats cs abs).filter
            (fun p => !hiddenName (childName p.1)
              && !excluded pats (abs ++ "/" ++ childName p.1)))).length
        = 0 + (sortByKey (fun p => entryKey p.1)
          ((renderChildren pats cs abs).filter
            (fun p => !hiddenName (childName p.1)
              && !excluded pats (abs ++ "/" ++ childName p.1)))).length := by omega
      rw [h0, specAssembleGo_eq]
termination_by structural t => t

theorem renderChildren_eq_spec (pats : List (List RTok)) :
    ∀ (cs : List FSTree) (abs : String),
      renderChildren pats cs abs = specRenderChildren pats cs abs
  | [], _ => rfl
  | c :: rest, abs => by
      show (c, walkNode pats c (abs ++ "/" ++ childName c)) :: renderChildren pats rest abs
        = (c, specWalkNode pats c (abs ++ "/" ++ childName c)) :: specRenderChildren pats rest abs
      rw [walkNode_eq_spec pats c (abs ++ "/" ++ childName c),
        renderChildren_eq_spec pats rest abs]
termination_by structural cs => cs
end

/-! Unfolding equations (definitional) for the mutual recursive functions,
used because the tactic-level `show` does not unfold them. -/

theorem rglobFrom_dir (n : String) (cs : List FSTree) (abs : String) (rel : List String) :
    rglobFrom (.dir n cs) abs rel
      = (cs.filterMap (fun c =>
          match c with
          | .file n2 pr =>
              if matchesStarPy n2 then some ⟨rel ++ [n2], abs ++ "/" ++ n2, pr⟩ else none
          | .dir _ _ => none))
        ++ rglobChildren cs abs rel := rfl

theorem rglobChildren_cons_file (n2 : String) (pr : ParseOutcome) (rest : List FSTree)
    (abs : String) (rel : List String) :
    rglobChildren (.file n2 pr :: rest) abs rel = rglobChildren rest abs rel := rfl

theorem rglobChildren_cons_dir (n2 : String) (ds rest : List FSTree)
    (abs : String) (rel : List String) :
    rglobChildren (.dir n2 ds :: rest) abs rel
      = rglobFrom (.dir n2 ds) (abs ++ "/" ++ n2) (rel ++ [n2])
        ++ rglobChildren rest abs rel := rfl

theorem specReportOrder_dir (pats : List (List RTok)) (n : String) (cs : List FSTree)
    (abs : String) :
    specReportOrder pats (.dir n cs) abs
      = (cs.filterMap (fun c =>
          match c with
          | .file n2 pr =>
              if matchesStarPy n2 && isOkParse pr && !excluded pats (abs ++ "/" ++ n2)
              then some [n2] else none
          | .dir _ _ => none))
        ++ specReportChildren pats cs abs := rfl

theorem specReportChildren_cons_file (pats : List (List RTok)) (n2 : String)
    (pr : ParseOutcome) (rest : List FSTree) (abs : String) :
    specReportChildren pats (.file n2 pr :: rest) abs
      = specReportChildren pats rest abs := rfl

theorem specReportChildren_cons_dir (pats : List (List RTok)) (n2 : String)
    (ds rest : List FSTree) (abs : String) :
    specReportChildren pats (.dir n2 ds :: rest) abs
      = (specReportOrder pats (.dir n2 ds) (abs ++ "/" ++ n2)).map (fun parts => n2 :: parts)
        ++ specReportChildren pats rest abs := rfl

theorem analyze_file_order_append (pats : List (List RTok)) (a b : List PyEntry) :
    analyze_file_order pats (a ++ b)
      = analyze_file_order pats a ++ analyze_file_order pats b :=
  List.filterMap_append a b _

theorem analyze_file_order_cons (pats : List (List RTok)) (e : PyEntry) (l : List PyEntry) :
    analyze_file_order pats (e :: l)
      = (if excluded pats e.abs then analyze_file_order pats l
         else match e.parse with
           | .ok _ => e.relParts :: analyze_file_order pats l
           | .syntaxError => analyze_file_order pats l
           | .decodeError => analyze_file_order pats l) := by
  unfold analyze_file_order
  rw [List.filterMap_cons]
  by_cases hex : excluded pats e.abs = true
  · simp [hex]
  · have hexf : excluded pats e.abs = false := eq_false_of_ne_true hex
    cases hp : e.parse <;> simp [hexf, hp]

/-- The processed-file ordering of `_analyze_code` over the `rglob`
sequence is exactly `specReportOrder` (shifted by the relative-path
accumulator). -/
theorem analyze_file_order_rglob (pats : List (List RTok)) :
    ∀ (t : FSTree) (abs : String) (rel : List String),
      analyze_file_order pats (rglobFrom t abs rel)
        = (specReportOrder pats t abs).map (fun parts => rel ++ parts) := by
  intro t
  induction t using FSTree.inductionOn with
  | hfile n pr => intro abs rel; rfl
  | hdir n cs IH =>
      intro abs rel
      have hfiles : ∀ cs2 : List FSTree,
          analyze_file_order pats (cs2.filterMap (fun c =>
            match c with
            | .file n2 pr =>
                if matchesStarPy n2 then some ⟨rel ++ [n2], abs ++ "/" ++ n2, pr⟩ else none
            | .dir _ _ => none))
          = (cs2.filterMap (fun c =>
              match c with
              | .file n2 pr =>
                  if matchesStarPy n2 && isOkParse pr && !excluded pats (abs ++ "/" ++ n2)
                  then some [n2] else none
              | .dir _ _ => none)).map (fun parts => rel ++ parts) := by
        intro cs2
        induction cs2 with
        | nil => rfl
        | cons c rest ihc =>
            cases c with
            | dir nm ds =>
                rw [List.filterMap_cons, List.filterMap_cons]
                exact ihc
            | file nm pr =>
                by_cases hm : matchesStarPy nm = true
                · by_cases hex : excluded pats (abs ++ "/" ++ nm) = true
                  · cases pr <;>
                      simp [List.filterMap_cons, hm, hex, analyze_file_order_cons,
                        isOkParse, ihc]
                  · have hexf : excluded pats (abs ++ "/" ++ nm) = false :=
                      eq_false_of_ne_true hex
                    cases pr <;>
                      simp [List.filterMap_cons, hm, hexf, analyze_file_order_cons,
                        isOkParse, ihc]
                · have hmf : matchesStarPy nm = false := eq_false_of_ne_true hm
                  simp [List.filterMap_cons, hmf, ihc]
      have hchildren : ∀ cs2 : List FSTree,
          (∀ c ∈ cs2, ∀ (abs2 : String) (rel2 : List String),
            analyze_file_order pats (rglobFrom c abs2 rel2)
              = (specReportOrder pats c abs2).map (fun parts => rel2 ++ parts)) →
          analyze_file_order pats (rglobChildren cs2 abs rel)
            = (specReportChildren pats cs2 abs).map (fun parts => rel ++ parts) := by
        intro cs2
        induction cs2 with
        | nil => intro _; rfl
        | cons c rest ihc =>
            intro hmem
            have hrest := ihc (fun c2 hc2 => hmem c2 (List.mem_cons_of_mem c hc2))
            cases c with
            | file n2 pr =>
                rw [rglobChildren_cons_file, specReportChildren_cons_file]
                exact hrest
            | dir n2 ds =>
                rw [rglobChildren_cons_dir, specReportChildren_cons_dir,
                  analyze_file_order_append, List.map_append, hrest,
                  hmem (.dir n2 ds) (List.mem_cons_self _ _) (abs ++ "/" ++ n2) (rel ++ [n2]),
                  List.map_map]
                congr 1
                apply List.map_congr_left
                intro parts _
                simp
      rw [rglobFrom_dir, specReportOrder_dir]
      rw [analyze_file_order_append, List.map_append, hfiles cs, hchildren cs IH]

theorem specReportChildren_shape (pats : List (List RTok)) :
    ∀ (cs : List FSTree) (abs : String) (parts : List String),
      parts ∈ specReportChildren pats cs abs →
      ∃ c ∈ cs, ∃ ds rest, c = FSTree.dir (childName c) ds ∧ parts = childName c :: rest ∧
        rest ∈ specReportOrder pats c (abs ++ "/" ++ childName c)
  | [], _, _, h => absurd h (List.not_mem_nil _)
  | c :: cs2, abs, parts, h => by
      cases c with
      | file n2 pr =>
          rw [specReportChildren_cons_file] at h
          obtain ⟨c2, hc2, hrest⟩ := specReportChildren_shape pats cs2 abs parts h
          exact ⟨c2, List.mem_cons_of_mem _ hc2, hrest⟩
      | dir n2 ds =>
          rw [specReportChildren_cons_dir] at h
          rcases List.mem_append.mp h with h1 | h2
          · rcases List.mem_map.mp h1 with ⟨rest, hrest, hp⟩
            exact ⟨.dir n2 ds, List.mem_cons_self _ _, ds, rest, rfl, hp.symm, hrest⟩
          · obtain ⟨c2, hc2, hrest⟩ := specReportChildren_shape pats cs2 abs parts h2
            exact ⟨c2, List.mem_cons_of_mem _ hc2, hrest⟩

theorem specReportOrder_ne_nil (pats : List (List RTok)) (t : FSTree) (abs : String)
    (parts : List String) (h : parts ∈ specReportOrder pats t abs) : parts ≠ [] := by
  cases t with
  | file n pr => exact absurd h (List.not_mem_nil _)
  | dir n cs =>
      rw [specReportOrder_dir] at h
      rcases List.mem_append.mp h with h1 | h2
      · rcases List.mem_filterMap.mp h1 with ⟨c, _, hc⟩
        cases c with
        | file n2 pr =>
            have hc2 : (if (matchesStarPy n2 && isOkParse pr
                && !excluded pats (abs ++ "/" ++ n2)) = true
                then some [n2] else none) = some parts := hc
            by_cases hcond : (matchesStarPy n2 && isOkParse pr
                && !excluded pats (abs ++ "/" ++ n2)) = true
            · rw [if_pos hcond] at hc2
              cases hc2
              simp
            · rw [if_neg hcond] at hc2
              cases hc2
        | dir n2 ds =>
            have hc2 : (none : Option (List String)) = some parts := hc
            cases hc2
      · obtain ⟨c, _, ds, rest, _, hp, _⟩ := specReportChildren_shape pats cs abs parts h2
        rw [hp]
        simp

theorem filterMap_sublist_map {α β : Type} (f : α → Option β) (g : α → β)
    (h : ∀ a b, f a = some b → b = g a) :
    ∀ l : List α, (l.filterMap f).Sublist (l.map g)
  | [] => List.Sublist.refl []
  | a :: rest => by
      rw [List.filterMap_cons]
      cases hf : f a with
      | none =>
          exact (filterMap_sublist_map f g h rest).trans
            ((List.map g rest).sublist_cons_self (g a)) |>.trans (List.Sublist.refl _)
      | some b =>
          rw [h a b hf]
          exact (filterMap_sublist_map f g h rest).cons₂ (g a)

theorem cons_str_injective (nm : String) :
    Function.Injective (fun parts : List String => nm :: parts) := by
  intro a b hab
  simpa using hab

/-- Under distinct sibling names, the produced report ordering has no
duplicates. -/
theorem specReportOrder_nodup (pats : List (List RTok)) :
    ∀ t : FSTree, WfNames t → ∀ abs : String, (specReportOrder pats t abs).Nodup := by
  intro t
  induction t using FSTree.inductionOn with
  | hfile n pr =>
      intro _ abs
      exact List.nodup_nil
  | hdir n cs IH =>
      intro hwf abs
      cases hwf with
      | dir _ _ hnames hcw =>
      rw [specReportOrder_dir, List.nodup_append]
      refine ⟨?_, ?_, ?_⟩
      · -- names of kept files are distinct
        have hsub : ((cs.filterMap (fun c =>
            match c with
            | .file n2 pr =>
                if matchesStarPy n2 && isOkParse pr && !excluded pats (abs ++ "/" ++ n2)
                then some [n2] else none
            | .dir _ _ => none))).Sublist (cs.map (fun c => [childName c])) := by
          apply filterMap_sublist_map
          intro a b hab
          cases a with
          | file n2 pr =>
              have hab2 : (if (matchesStarPy n2 && isOkParse pr
                  && !excluded pats (abs ++ "/" ++ n2)) = true
                  then some [n2] else none) = some b := hab
              by_cases hcond : (matchesStarPy n2 && isOkParse pr
                  && !excluded pats (abs ++ "/" ++ n2)) = true
              · rw [if_pos hcond] at hab2
                cases hab2
                rfl
              · rw [if_neg hcond] at hab2
                cases hab2
          | dir n2 ds =>
              have hab2 : (none : Option (List String)) = some b := hab
              cases hab2
        apply hsub.nodup
        have : cs.map (fun c => [childName c])
            = (cs.map childName).map (fun x => [x]) := by
          rw [List.map_map]
          rfl
        rw [this]
        exact hnames.map (fun a b hab => by simpa using hab)
      · -- the subdirectory blocks are mutually disjoint and internally nodup
        have hchild : ∀ cs2 : List FSTree, (cs2.map childName).Nodup →
            (∀ c ∈ cs2, WfNames c) →
            (∀ c ∈ cs2, WfNames c → ∀ abs2 : String, (specReportOrder pats c abs2).Nodup) →
            (specReportChildren pats cs2 abs).Nodup := by
          intro cs2
          induction cs2 with
          | nil => intro _ _ _; exact List.nodup_nil
          | cons c rest ihc =>
              intro hn hw hIH
              obtain ⟨hnotin, hnrest⟩ := List.nodup_cons.mp hn
              have hrest := ihc hnrest (fun c2 hc2 => hw c2 (List.mem_cons_of_mem c hc2))
                (fun c2 hc2 => hIH c2 (List.mem_cons_of_mem c hc2))
              cases c with
              | file n2 pr =>
                  rw [specReportChildren_cons_file]
                  exact hrest
              | dir n2 ds =>
                  rw [specReportChildren_cons_dir, List.nodup_append]
                  refine ⟨?_, hrest, ?_⟩
                  · exact (hIH (.dir n2 ds) (List.mem_cons_self _ _)
                        (hw _ (List.mem_cons_self _ _)) (abs ++ "/" ++ n2)).map
                      (cons_str_injective n2)
                  · intro x hx1 hx2
                    rcases List.mem_map.mp hx1 with ⟨r1, _, hxeq⟩
                    obtain ⟨c2, hc2, ds2, rest2, _, hp2, _⟩ :=
                      specReportChildren_shape pats rest abs x hx2
                    rw [← hxeq] at hp2
                    have hn2 : n2 = childName c2 := (List.cons.injEq _ _ _ _).mp hp2 |>.1
                    apply hnotin
                    rw [hn2]
                    exact List.mem_map.mpr ⟨c2, hc2, rfl⟩
        exact hchild cs hnames hcw IH
      · -- a kept file entry `[n]` can never equal a subdirectory entry
        intro x hx1 hx2
        rcases List.mem_filterMap.mp hx1 with ⟨c, _, hcx⟩
        obtain ⟨c2, hc2, ds2, rest2, _, hp2, hrest2⟩ :=
          specReportChildren_shape pats cs abs x hx2
        cases c with
        | file n2 pr =>
            have hcx2 : (if (matchesStarPy n2 && isOkParse pr
                && !excluded pats (abs ++ "/" ++ n2)) = true
                then some [n2] else none) = some x := hcx
            by_cases hcond : (matchesStarPy n2 && isOkParse pr
                && !excluded pats (abs ++ "/" ++ n2)) = true
            · rw [if_pos hcond] at hcx2
              cases hcx2
              have hr2 : rest2 = [] := by
                have := (List.cons.injEq _ _ _ _).mp hp2
                exact this.2.symm
              rw [hr2] at hrest2
              exact specReportOrder_ne_nil pats c2 _ [] hrest2 rfl
            · rw [if_neg hcond] at hcx2
              cases hcx2
        | dir n2 ds =>
            have hcx2 : (none : Option (List String)) = some x := hcx
            cases hcx2

theorem data_append_three (a b c : String) :
    ((a ++ b) ++ c).data = a.data ++ (b.data ++ c.data) := by
  rw [String.data_append, String.data_append, List.append_assoc]

/-- A path of the form `output/name` lies under `output/backups` only when
`name` starts with `backups/`. -/
theorem not_underDir_of_name (outputAbs nm : String)
    (h : ("backups/").data.isPrefixOf nm.data = false) :
    ¬ underDir (outputAbs ++ "/backups") (outputAbs ++ "/" ++ nm) := by
  unfold underDir
  intro hp
  rw [data_append_three, data_append_three] at hp
  have hb : ("/backups").data ++ ("/").data = '/' :: ("backups/").data := by decide
  have hn : ("/").data ++ nm.data = '/' :: nm.data := rfl
  rw [hb, hn] at hp
  have := (List.prefix_append_right_inj outputAbs.data).mp hp
  have := (List.cons_prefix_cons.mp this).2
  rw [← List.isPrefixOf_iff_prefix] at this
  rw [h] at this
  cases this

theorem not_underDir_gitignore (outputAbs : String) :
    ¬ underDir (outputAbs ++ "/backups") (outputAbs ++ "/.gitignore") := by
  unfold underDir
  intro hp
  rw [data_append_three, String.data_append] at hp
  have hb : ("/backups").data ++ ("/").data = '/' :: ("backups/").data := by decide
  have hn : ("/.gitignore" : String).data = '/' :: (".gitignore" : String).data := rfl
  rw [hb, hn] at hp
  have := (List.prefix_append_right_inj outputAbs.data).mp hp
  have h2 := (List.cons_prefix_cons.mp this).2
  rw [← List.isPrefixOf_iff_prefix] at h2
  have h3 : ("backups/").data.isPrefixOf (".gitignore" : String).data = false := by decide
  rw [h3] at h2
  cases h2

/-- Every effect of `_update_gitignore` is an append to
`output_dir/.gitignore`. -/
theorem update_gitignore_effects_shape (outputAbs : String) (gi : Option String)
    (ef : Effect) (h : ef ∈ update_gitignore_effects outputAbs gi) :
    ∃ c, ef = Effect.appendFile (outputAbs ++ "/.gitignore") c := by
  cases gi with
  | none =>
      have h2 : ef ∈ [Effect.appendFile (outputAbs ++ "/.gitignore")
          ("\n" ++ joinNL gitignoreEntries)] := h
      rw [List.mem_singleton] at h2
      exact ⟨_, h2⟩
  | some s =>
      have h2 : ef ∈ (if (gitignoreEntries.filter (fun e => !containsSub s e)).isEmpty
          then ([] : List Effect)
          else [Effect.appendFile (outputAbs ++ "/.gitignore")
            ("\n" ++ joinNL (gitignoreEntries.filter (fun e => !containsSub s e)))]) := h
      split at h2
      · exact absurd h2 (List.not_mem_nil _)
      · rw [List.mem_singleton] at h2
        exact ⟨_, h2⟩

/-! ## Claim theorems -/

/-- C1 (code bug): the compiled matcher never behaves as claimed.  Every
compiled regex is anchored at the start of the matched string, and the
matched strings are absolute paths (starting with `/`), so the pattern
`"tests/"` — compiled to `^tests.*$` — matches no walked path at all:
it does not exclude `project/tests/`, and `"test*"` (compiled `^test.*$`)
excludes neither `test_utils.py` nor `testing/`.  The claim's "matches the
full relative path or some ancestor directory name" semantics is not what
the code implements. -/
theorem claim_C1_anchored_matcher_dead :
    (∀ rest : List Char, rmatch (convert_pattern_to_regex "tests/") ('/' :: rest) = false) ∧
    (∀ rest : List Char, rmatch (convert_pattern_to_regex "test*") ('/' :: rest) = false) ∧
    excluded [convert_pattern_to_regex "tests/"] "/home/user/project/tests" = false ∧
    excluded [convert_pattern_to_regex "tests/"] "/home/user/project/tests/deep/file.py" = false ∧
    excluded [convert_pattern_to_regex "test*"] "/home/user/project/test_utils.py" = false ∧
    excluded [convert_pattern_to_regex "test*"] "/home/user/project/testing" = false :=
  ⟨fun _ => rfl, fun _ => rfl, rfl, rfl, rfl, rfl⟩

/-- C4 counterexample: a top-level declaration **with** attached
documentation text — the text being exactly `"No documentation"` — is
emitted into the undocumented-elements artifact, although the claim says a
documented declaration never appears there. -/
theorem claim_C4_counterexample :
    (handle_code_element (.functionDef "f" (some "No documentation")) "m.py").2
      = ["File: m.py | Element: Function | Name: f\n"] := rfl

/-- C4 (amended): for a top-level class or function declaration whose
documentation text is non-empty and not exactly the sentinel
`"No documentation"`, the summary shows the first 100 characters of the
text (the whole text when it is at most 100 characters long), always
followed by the ellipsis marker, and the declaration is absent from the
undocumented artifact; a declaration with no documentation, empty
documentation, or documentation exactly `"No documentation"` is summarised
as `No documentation...` and yields exactly one undocumented-artifact line
with matching relative path, kind and name. -/
theorem claim_C4_amended (st : Stmt) (eT name rel : String) (doc : Option String)
    (hst : st = .classDef name doc ∧ eT = "Class"
         ∨ st = .functionDef name doc ∧ eT = "Function") :
    (∀ s, doc = some s → s ≠ "" → s ≠ "No documentation" →
      handle_code_element st rel
        = (["  " ++ eT ++ ": " ++ name ++ "\n",
            "    Documentation: " ++ String.mk (s.data.take 100) ++ "...\n"], [])
      ∧ (s.length ≤ 100 → String.mk (s.data.take 100) = s)) ∧
    ((doc = none ∨ doc = some "" ∨ doc = some "No documentation") →
      handle_code_element st rel
        = (["  " ++ eT ++ ": " ++ name ++ "\n",
            "    Documentation: No documentation...\n"],
           ["File: " ++ rel ++ " | Element: " ++ eT ++ " | Name: " ++ name ++ "\n"])) := by
  have hcore : ∀ eT2,
      (∀ s, doc = some s → s ≠ "" → s ≠ "No documentation" →
        handleElement eT2 name doc rel
          = (["  " ++ eT2 ++ ": " ++ name ++ "\n",
              "    Documentation: " ++ String.mk (s.data.take 100) ++ "...\n"], [])
        ∧ (s.length ≤ 100 → String.mk (s.data.take 100) = s)) ∧
      ((doc = none ∨ doc = some "" ∨ doc = some "No documentation") →
        handleElement eT2 name doc rel
          = (["  " ++ eT2 ++ ": " ++ name ++ "\n",
              "    Documentation: No documentation...\n"],
             ["File: " ++ rel ++ " | Element: " ++ eT2 ++ " | Name: " ++ name ++ "\n"])) := by
    intro eT2
    constructor
    · rintro s rfl hne hsent
      constructor
      · show (["  " ++ eT2 ++ ": " ++ name ++ "\n",
               "    Documentation: "
                 ++ String.mk ((if s = "" then "No documentation" else s).data.take 100)
                 ++ "...\n"],
              if (if s = "" then "No documentation" else s) = "No documentation" then
                ["File: " ++ rel ++ " | Element: " ++ eT2 ++ " | Name: " ++ name ++ "\n"]
              else []) = _
        rw [if_neg hne, if_neg hsent]
      · intro hlen
        have hlen2 : s.data.length ≤ 100 := hlen
        rw [List.take_of_length_le hlen2]
    · rintro (rfl | rfl | rfl) <;> rfl
  rcases hst with ⟨rfl, rfl⟩ | ⟨rfl, rfl⟩
  · exact hcore "Class"
  · exact hcore "Function"

/-- C4 witness: the amended theorem applied to a concrete documented
declaration. -/
theorem claim_C4_amended_witness :
    handle_code_element (.functionDef "f" (some "Computes X.")) "a.py"
      = (["  Function: f\n",
          "    Documentation: " ++ String.mk ("Computes X.".data.take 100) ++ "...\n"], []) :=
  ((claim_C4_amended (.functionDef "f" (some "Computes X.")) "Function" "f" "a.py"
      (some "Computes X.") (Or.inr ⟨rfl, rfl⟩)).1
    "Computes X." rfl (by decide) (by decide)).1

/-- C5: running `_update_gitignore` a second time against the output it
produced appends nothing — the content is unchanged — and each of the four
standard entries occurs at most once as a line afterwards, provided it
occurred at most once as a line before the first run. -/
theorem claim_C5_gitignore_idempotent (x : Option String) :
    update_gitignore (some (update_gitignore x)) = update_gitignore x ∧
    ∀ e ∈ gitignoreEntries, lineCountOpt x e ≤ 1 →
      lineCountStr (update_gitignore (some (update_gitignore x))) e ≤ 1 := by
  refine ⟨update_gitignore_idem x, ?_⟩
  intro e he hx
  rw [update_gitignore_idem x]
  exact lineCount_update_gitignore x e he hx

/-- C5 witness: idempotence and the no-duplicate bound, starting from an
absent `.gitignore`. -/
theorem claim_C5_witness :
    ("backups/" ∈ gitignoreEntries ∧ lineCountOpt none "backups/" ≤ 1) ∧
    update_gitignore (some (update_gitignore none)) = update_gitignore none ∧
    lineCountStr (update_gitignore (some (update_gitignore none))) "backups/" ≤ 1 :=
  ⟨⟨by decide, by decide⟩,
   (claim_C5_gitignore_idempotent none).1,
   (claim_C5_gitignore_idempotent none).2 "backups/" (by decide) (by decide)⟩

/-- C7: a file raising `SyntaxError` or `UnicodeDecodeError` contributes
zero chunks to both artifacts and does not disturb the processing of the
remaining files: the analysis of any entry sequence containing it equals
the analysis of the sequence without it (and in particular terminates
normally). -/
theorem claim_C7_parse_failure_skipped (pats : List (List RTok))
    (pre post : List PyEntry) (e : PyEntry)
    (h : e.parse = .syntaxError ∨ e.parse = .decodeError) :
    analyze_list pats (pre ++ e :: post) = analyze_list pats (pre ++ post) := by
  induction pre with
  | nil =>
      show analyze_list pats (e :: post) = analyze_list pats post
      show (if excluded pats e.abs then analyze_list pats post
            else match e.parse with
              | .ok body =>
                  ((process_file (joinParts e.relParts) body).1 ++ (analyze_list pats post).1,
                   (process_file (joinParts e.relParts) body).2 ++ (analyze_list pats post).2)
              | .syntaxError => analyze_list pats post
              | .decodeError => analyze_list pats post) = analyze_list pats post
      rcases h with h | h <;> rw [h] <;> split <;> rfl
  | cons a pre ih =>
      show analyze_list pats (a :: (pre ++ e :: post)) = analyze_list pats (a :: (pre ++ post))
      simp only [analyze_list, ih]

/-- C7 witness: a concrete syntax-error entry between two runs of the
analysis loop. -/
theorem claim_C7_witness :
    ((⟨["b.py"], "/r/b.py", .syntaxError⟩ : PyEntry).parse = .syntaxError ∨
     (⟨["b.py"], "/r/b.py", .syntaxError⟩ : PyEntry).parse = .decodeError) ∧
    analyze_list [] ([] ++ (⟨["b.py"], "/r/b.py", .syntaxError⟩ : PyEntry)
        :: [⟨["a.py"], "/r/a.py", .ok []⟩])
      = analyze_list [] ([] ++ [⟨["a.py"], "/r/a.py", .ok []⟩]) :=
  ⟨Or.inl rfl,
   claim_C7_parse_failure_skipped [] [] [⟨["a.py"], "/r/a.py", .ok []⟩]
     ⟨["b.py"], "/r/b.py", .syntaxError⟩ (Or.inl rfl)⟩

/-- C8 (code bug): `comunicate_with_llm_cached` never returns a response
and never returns `None` — for every prompt and every network outcome it
raises `TypeError` at the membership test `cache_key in cache_info().hits`,
because `functools.lru_cache`'s `cache_info().hits` is an `int` counter,
before any HTTP request is attempted.  This contradicts both the claim and
the function's own docstring ("Returns: str: The response from the LLM,
either from the cache or from the API call"). -/
theorem claim_C8_cached_wrapper_raises (md5hex : String → String) (net : NetOutcome)
    (prompt : String) :
    comunicate_with_llm_cached md5hex net prompt
      = .error (.typeError "argument of type 'int' is not iterable") ∧
    comunicate_with_llm net prompt
      = (match net with | .success text => some text | .failure => none) :=
  ⟨rfl, rfl⟩

/-- C9: with `--no-gitignore` set, `main` still updates the output
directory's ignore file once (inside `generate_summary`); afterwards every
standard entry is contained in the file, and the content is the same as
without the flag (the second call is redundant by idempotence). -/
theorem claim_C9_flag_suppresses_redundant_update (initial : Option String) :
    main_gitignore_content true initial = update_gitignore initial ∧
    main_gitignore_content true initial = main_gitignore_content false initial ∧
    ∀ e ∈ gitignoreEntries, containsSub (main_gitignore_content true initial) e = true := by
  refine ⟨rfl, ?_, ?_⟩
  · show update_gitignore initial = update_gitignore (some (update_gitignore initial))
    exact (update_gitignore_idem initial).symm
  · intro e he
    show containsSub (update_gitignore initial) e = true
    exact containsSub_update_gitignore initial e he

/-- C9 witness: the flagged run still deposits the standard entries. -/
theorem claim_C9_witness :
    ("backups/" ∈ gitignoreEntries) ∧
    main_gitignore_content true none = update_gitignore none ∧
    containsSub (main_gitignore_content true none) "backups/" = true :=
  ⟨by decide,
   (claim_C9_flag_suppresses_redundant_update none).1,
   (claim_C9_flag_suppresses_redundant_update none).2.2 "backups/" (by decide)⟩

/-- C2 counterexample: with the pattern `*tests` (which, compiled, matches
the absolute path of the `tests` directory), the rendered tree prunes
`tests` — yet `tests/a.py`, a child no pattern matches, still receives its
own `File:` section in the report, because `_analyze_code` filters each
`rglob`-yielded file individually rather than pruning. -/
theorem claim_C2_counterexample :
    excluded [convert_pattern_to_regex "*tests"] "/home/user/project/tests" = true ∧
    generate_structure [convert_pattern_to_regex "*tests"] "/home/user/project" "project"
        (.dir "project" [.dir "tests" [.file "a.py" (.ok [])]])
      = ["project/\n"] ∧
    (analyze_code [convert_pattern_to_regex "*tests"] "/home/user/project"
        (.dir "project" [.dir "tests" [.file "a.py" (.ok [])]])).1
      = ["\nFile: tests/a.py\n"] :=
  ⟨rfl, rfl, rfl⟩

/-- C2 (amended): a directory matched by an ignore rule contributes no
entry to the rendered tree — the walk equals the walk of the tree with the
matched directory and its whole subtree removed — but in the per-file
report sections exclusion is applied per file: every `rglob`-yielded file
whose own absolute path is not matched and which parses successfully
receives its section, even when an ancestor directory is matched. -/
theorem claim_C2_amended (pats : List (List RTok)) :
    (∀ (abs nm : String) (cs₁ cs₂ : List FSTree) (c : FSTree),
      excluded pats (abs ++ "/" ++ childName c) = true →
      walkNode pats (.dir nm (cs₁ ++ c :: cs₂)) abs
        = walkNode pats (.dir nm (cs₁ ++ cs₂)) abs) ∧
    (∀ (entries : List PyEntry) (e : PyEntry), e ∈ entries →
      excluded pats e.abs = false → ∀ body, e.parse = .ok body →
      ("\nFile: " ++ joinParts e.relParts ++ "\n") ∈ (analyze_list pats entries).1) :=
  ⟨fun abs nm cs₁ cs₂ c hex => walkNode_prunes_excluded pats abs nm cs₁ cs₂ c hex,
   fun entries e hmem hex body hp => file_header_mem_analyze pats entries e hmem hex body hp⟩

/-- C2 witness: the amended theorem applied to the `*tests` example. -/
theorem claim_C2_amended_witness :
    (excluded [convert_pattern_to_regex "*tests"]
        ("/home/user/project" ++ "/" ++ childName (.dir "tests" [FSTree.file "a.py" (.ok [])]))
      = true ∧
     (⟨["tests", "a.py"], "/home/user/project/tests/a.py", .ok []⟩ : PyEntry)
       ∈ rglobFrom (.dir "project" [.dir "tests" [.file "a.py" (.ok [])]]) "/home/user/project" [] ∧
     excluded [convert_pattern_to_regex "*tests"] "/home/user/project/tests/a.py" = false ∧
     (⟨["tests", "a.py"], "/home/user/project/tests/a.py", .ok []⟩ : PyEntry).parse = .ok []) ∧
    walkNode [convert_pattern_to_regex "*tests"]
        (.dir "project" ([] ++ FSTree.dir "tests" [FSTree.file "a.py" (.ok [])] :: []))
        "/home/user/project"
      = walkNode [convert_pattern_to_regex "*tests"] (.dir "project" ([] ++ []))
        "/home/user/project" ∧
    ("\nFile: " ++ joinParts [ "tests", "a.py"] ++ "\n")
      ∈ (analyze_list [convert_pattern_to_regex "*tests"]
          (rglobFrom (.dir "project" [.dir "tests" [.file "a.py" (.ok [])]])
            "/home/user/project" [])).1 :=
  ⟨⟨by decide, by decide, by decide, rfl⟩,
   (claim_C2_amended [convert_pattern_to_regex "*tests"]).1
     "/home/user/project" "project" [] [] (.dir "tests" [.file "a.py" (.ok [])]) (by decide),
   (claim_C2_amended [convert_pattern_to_regex "*tests"]).2
     (rglobFrom (.dir "project" [.dir "tests" [.file "a.py" (.ok [])]]) "/home/user/project" [])
     ⟨["tests", "a.py"], "/home/user/project/tests/a.py", .ok []⟩
     (by decide) (by decide) [] rfl⟩

/-- C6 counterexample: in a directory whose (sorted, filtered) entries end
with a non-source file, the `└── ` connector is attached to nothing — the
last *rendered* entry carries `├── `, because `is_last` is computed over
`items`, which still contains the invisible `readme.txt`.  The claim's "the
last rendered entry of each directory uses `└── `" is false. -/
theorem claim_C6_counterexample :
    walkNode [] (.dir "p" [.file "a.py" (.ok []), .file "readme.txt" (.ok [])]) "/r"
      = ["├── a.py\n"] ∧
    ("├── a.py\n").data.take 4 = ("├── ").data ∧
    ("├── a.py\n").data.take 4 ≠ ("└── ").data :=
  ⟨rfl, by decide, by decide⟩

/-- C6 (amended): the rendered tree is a deterministic function of the
input tree (with its directory-listing order) and the patterns, and its
connectors reflect last-child status among the *filtered sorted sibling
list* — in which non-source files still count as children although they
render nothing: entry `i` of `n` uses `└── ` (and blank continuation)
exactly when `i = n - 1`, `├── ` (and `│   `) otherwise, and only
directories and `.py`-suffixed files are rendered.  Stated as: `_tree_walk`
coincides with the index-based formulation `specWalkNode`. -/
theorem claim_C6_amended (pats : List (List RTok)) (t : FSTree) (abs : String) :
    walkNode pats t abs = specWalkNode pats t abs :=
  walkNode_eq_spec pats t abs

/-- C3 counterexample: `_analyze_code` iterates `Path.rglob("*.py")`, which
does not sort; with siblings listed in the order `b.py`, `a.py`, the
report's file ordering is `b.py`, `a.py`, while the claimed depth-first
directories-first case-insensitively-sorted ordering (`claimSortedOrder`)
is `a.py`, `b.py`. -/
theorem claim_C3_counterexample :
    analyze_file_order []
        (rglobFrom (.dir "p" [.file "b.py" (.ok []), .file "a.py" (.ok [])]) "/r" [])
      = [["b.py"], ["a.py"]] ∧
    claimSortedOrder [] (.dir "p" [.file "b.py" (.ok []), .file "a.py" (.ok [])]) "/r"
      = [["a.py"], ["b.py"]] ∧
    analyze_file_order []
        (rglobFrom (.dir "p" [.file "b.py" (.ok []), .file "a.py" (.ok [])]) "/r" [])
      ≠ claimSortedOrder [] (.dir "p" [.file "b.py" (.ok []), .file "a.py" (.ok [])]) "/r" :=
  ⟨rfl, rfl, by decide⟩

/-- C3 (amended): on a tree with distinct sibling names, every
successfully-parsed `.py` file not matched by any ignore rule appears
exactly once in the report's file ordering (the ordering has no
duplicates), and that ordering is `specReportOrder`: the `rglob` document
order — each directory's own matching files in directory-listing order,
followed by the blocks of its subdirectories in listing order (depth-first
pre-order without any sorting). -/
theorem claim_C3_amended (pats : List (List RTok)) (rootAbs : String) (t : FSTree)
    (hwf : WfNames t) :
    analyze_file_order pats (rglobFrom t rootAbs []) = specReportOrder pats t rootAbs ∧
    (analyze_file_order pats (rglobFrom t rootAbs [])).Nodup := by
  have heq := analyze_file_order_rglob pats t rootAbs []
  have hfun : (fun parts : List String => ([] : List String) ++ parts) = id := by
    funext parts
    simp
  rw [hfun, List.map_id] at heq
  exact ⟨heq, heq ▸ specReportOrder_nodup pats t hwf rootAbs⟩

/-- C3 witness: the amended theorem applied to the two-file tree. -/
theorem claim_C3_amended_witness :
    WfNames (.dir "p" [.file "b.py" (.ok []), .file "a.py" (.ok [])]) ∧
    (analyze_file_order []
        (rglobFrom (.dir "p" [.file "b.py" (.ok []), .file "a.py" (.ok [])]) "/r" [])
      = specReportOrder [] (.dir "p" [.file "b.py" (.ok []), .file "a.py" (.ok [])]) "/r" ∧
    (analyze_file_order []
        (rglobFrom (.dir "p" [.file "b.py" (.ok []), .file "a.py" (.ok [])]) "/r" [])).Nodup) :=
  have hwf : WfNames (.dir "p" [.file "b.py" (.ok []), .file "a.py" (.ok [])]) :=
    WfNames.dir _ _ (by decide) (by
      intro c hc
      rcases List.mem_cons.mp hc with rfl | hc2
      · exact WfNames.file _ _
      · rcases List.mem_cons.mp hc2 with rfl | hc3
        · exact WfNames.file _ _
        · cases hc3)
  ⟨hwf, claim_C3_amended [] "/r" _ hwf⟩

/-- C10: every `generate_summary` run creates the output directory and its
`backups` subdirectory as side effects; every file write of the run targets
the summary file, the undocumented file, or the output directory's
`.gitignore`, and — for file names not themselves placed under `backups`,
as `main`'s timestamped defaults are — none of these paths lies inside the
`backups` subdirectory. -/
theorem claim_C10_backups_created_never_written (pats : List (List RTok))
    (rootAbs rootName outputAbs now sName uName : String) (t : FSTree) (gi : Option String)
    (hs : ("backups/").data.isPrefixOf sName.data = false)
    (hu : ("backups/").data.isPrefixOf uName.data = false) :
    Effect.mkdirP outputAbs
      ∈ generate_summary_effects pats rootAbs rootName outputAbs
          (outputAbs ++ "/" ++ sName) (outputAbs ++ "/" ++ uName) now t gi ∧
    Effect.mkdirP (outputAbs ++ "/backups")
      ∈ generate_summary_effects pats rootAbs rootName outputAbs
          (outputAbs ++ "/" ++ sName) (outputAbs ++ "/" ++ uName) now t gi ∧
    (∀ (p : String) (chunks : List String),
      Effect.writeFile p chunks
          ∈ generate_summary_effects pats rootAbs rootName outputAbs
              (outputAbs ++ "/" ++ sName) (outputAbs ++ "/" ++ uName) now t gi →
      (p = outputAbs ++ "/" ++ sName ∨ p = outputAbs ++ "/" ++ uName) ∧
      ¬ underDir (outputAbs ++ "/backups") p) ∧
    (∀ (p content : String),
      Effect.appendFile p content
          ∈ generate_summary_effects pats rootAbs rootName outputAbs
              (outputAbs ++ "/" ++ sName) (outputAbs ++ "/" ++ uName) now t gi →
      p = outputAbs ++ "/.gitignore" ∧ ¬ underDir (outputAbs ++ "/backups") p) := by
  refine ⟨?_, ?_, ?_, ?_⟩
  · exact List.mem_append_left _ (List.mem_cons_self _ _)
  · exact List.mem_append_left _ (List.mem_cons_of_mem _ (List.mem_cons_self _ _))
  · intro p chunks h
    rcases List.mem_append.mp h with h1 | h2
    · simp only [List.mem_cons, List.not_mem_nil, or_false] at h1
      rcases h1 with h1 | h1 | h1 | h1
      · cases h1
      · cases h1
      · have hp : p = outputAbs ++ "/" ++ sName := (Effect.writeFile.injEq _ _ _ _).mp h1 |>.1
        exact ⟨Or.inl hp, hp ▸ not_underDir_of_name outputAbs sName hs⟩
      · have hp : p = outputAbs ++ "/" ++ uName := (Effect.writeFile.injEq _ _ _ _).mp h1 |>.1
        exact ⟨Or.inr hp, hp ▸ not_underDir_of_name outputAbs uName hu⟩
    · obtain ⟨c, hc⟩ := update_gitignore_effects_shape outputAbs gi _ h2
      cases hc
  · intro p content h
    rcases List.mem_append.mp h with h1 | h2
    · simp only [List.mem_cons, List.not_mem_nil, or_false] at h1
      rcases h1 with h1 | h1 | h1 | h1 <;> cases h1
    · obtain ⟨c, hc⟩ := update_gitignore_effects_shape outputAbs gi _ h2
      have hp : p = outputAbs ++ "/.gitignore" :=
        (Effect.appendFile.injEq _ _ _ _).mp hc |>.1
      exact ⟨hp, hp ▸ not_underDir_gitignore outputAbs⟩

/-- C10 witness: the theorem applied to `main`'s default artifact names. -/
theorem claim_C10_witness :
    (("backups/").data.isPrefixOf ("project_summary_20240101_000000.txt").data = false ∧
     ("backups/").data.isPrefixOf ("undocumented_code_20240101_000000.txt").data = false) ∧
    Effect.mkdirP ("/out" ++ "/backups")
      ∈ generate_summary_effects [] "/proj" "proj" "/out"
          ("/out" ++ "/" ++ "project_summary_20240101_000000.txt")
          ("/out" ++ "/" ++ "undocumented_code_20240101_000000.txt")
          "2024-01-01 00:00:00" (.dir "proj" []) none :=
  ⟨⟨by decide, by decide⟩,
   (claim_C10_backups_created_never_written [] "/proj" "proj" "/out" "2024-01-01 00:00:00"
      "project_summary_20240101_000000.txt" "undocumented_code_20240101_000000.txt"
      (.dir "proj" []) none (by decide) (by decide)).2.1⟩

end ProjectToolkit
